import Mathlib

/-!
A verification development for the core of the `fvq` experimental image
codec.  Rust source files are embedded shallowly:

* machine integers (`i16`) become `ℤ`;
* `f32`/`f64` values become `ℚ` (all float computations the claims touch
  stay on dyadic rationals well inside the exactly-representable range,
  except the perceptual `tolerance` function, whose cube root is
  irrational and is therefore modelled as an abstract positive parameter);
* Rust `assert!` failures and arithmetic that would panic become `none`
  in an `Option` result;
* fixed-size `u32`/`u64` arithmetic becomes `ℕ` arithmetic with explicit
  `% 2^32` / guards where the source relies on wrapping or asserts.
-/

/-- Rust `f32::round` / `f64::round`: round half away from zero. -/
def rustRound (q : ℚ) : ℤ :=
  if 0 ≤ q then ⌊q + 1/2⌋ else -⌊-q + 1/2⌋

/-- `fn round2(x: f32) -> f32 { 2.0 * (x * 0.5).round() }` from
`src/quantize/bcc.rs`: round to the nearest even integer. -/
def round2 (x : ℚ) : ℚ := 2 * ((rustRound (x * (1/2)) : ℤ) : ℚ)

/-- `fn norm(v: f32, h: f32, c: f32) -> f32` from `src/quantize/bcc.rs`:
squared L2 norm. -/
def bccNorm (v h c : ℚ) : ℚ := v * v + h * h + c * c

/-- Rust `as i16` cast of an `f32` (truncation toward zero); every use in
the embedded code applies it to a value that is an exact integer. -/
def truncQ (q : ℚ) : ℤ := if 0 ≤ q then ⌊q⌋ else ⌈q⌉

/-- `struct ShiftedBCC` from `src/quantize/bcc.rs`: the stored fields
(`v` coordinate minus 1, `h` coordinate, `c` coordinate minus ½). -/
structure ShiftedBCC where
  v : ℤ
  h : ℤ
  c : ℤ
deriving DecidableEq, Repr

namespace ShiftedBCC

/-- The invariant asserted by `ShiftedBCC::new_inner`: the parities of the
three stored fields agree (`v & 1 == c & 1` and `h & 1 == c & 1`). -/
def Valid (b : ShiftedBCC) : Prop := b.v % 2 = b.c % 2 ∧ b.h % 2 = b.c % 2

instance : DecidablePred Valid := fun b => by unfold Valid; infer_instance

/-- `ShiftedBCC::new`: construct from 3D coordinates. -/
def new (v h c : ℚ) : ShiftedBCC :=
  { v := truncQ (v - 1), h := truncQ h, c := truncQ (c - 1/2) }

/-- `ShiftedBCC::v()`. -/
def extV (b : ShiftedBCC) : ℚ := (b.v : ℚ) + 1

/-- `ShiftedBCC::h()`. -/
def extH (b : ShiftedBCC) : ℚ := (b.h : ℚ)

/-- `ShiftedBCC::c()`. -/
def extC (b : ShiftedBCC) : ℚ := (b.c : ℚ) + 1/2

/-- `ShiftedBCC::vhc()`. -/
def vhc (b : ShiftedBCC) : ℚ × ℚ × ℚ := (b.extV, b.extH, b.extC)

/-- `ShiftedBCC::quantize`: the nearest `ShiftedBCC` to `(v, h, c)` and
the squared L2 norm of the difference. -/
def quantize (v h c : ℚ) : ShiftedBCC × ℚ :=
  let v1 := round2 (v - 1) + 1
  let h1 := round2 (h - 0) + 0
  let c1 := round2 (c - 1/2) + 1/2
  let norm1 := bccNorm (v - v1) (h - h1) (c - c1)
  let v2 := round2 (v + 0) - 0
  let h2 := round2 (h + 1) - 1
  let c2 := round2 (c + 1/2) - 1/2
  let norm2 := bccNorm (v - v2) (h - h2) (c - c2)
  if norm1 < norm2 then (new v1 h1 c1, norm1) else (new v2 h2 c2, norm2)

end ShiftedBCC

/-- `struct Residual` from `src/quantize/bcc.rs`: one of 8 values. -/
structure Residual where
  val : Fin 8
deriving DecidableEq, Repr

/-- `const RESIDUALS: [(f32, f32, f32); 8]`. -/
def RESIDUALS : Fin 8 → ℚ × ℚ × ℚ
  | 0 => (-1/2, 0, 3/4)
  | 1 => (0, -1/2, -3/4)
  | 2 => (0, 1/2, -3/4)
  | 3 => (1/2, 0, 3/4)
  | 4 => (-1/2, 0, -1/4)
  | 5 => (0, -1/2, 1/4)
  | 6 => (0, 1/2, 1/4)
  | 7 => (1/2, 0, -1/4)

/-- `const DELTAS: [(i16, i16, i16); 8]`. -/
def DELTAS : Fin 8 → ℤ × ℤ × ℤ
  | 0 => (0, 0, 2)
  | 1 => (1, -1, -1)
  | 2 => (1, 1, -1)
  | 3 => (2, 0, 2)
  | 4 => (0, 0, 0)
  | 5 => (1, -1, 1)
  | 6 => (1, 1, 1)
  | 7 => (2, 0, 0)

namespace Residual

/-- `Residual::vhc()`. -/
def vhc (r : Residual) : ℚ × ℚ × ℚ := RESIDUALS r.val

/-- `Residual::fixed_point()`: the unique `ShiftedBCC` coordinates `fp`
with `fp.arrow() == (fp, self)`. -/
def fixed_point (r : Residual) : ℚ × ℚ × ℚ :=
  let (v, h, c) := r.vhc
  (-2 * v, -2 * h, -2 * c)

end Residual

/-- `const SYNDROMES: [[[Residual; 4]; 2]; 2]`, indexed by
(bit 1 of `v`, bit 1 of `h`, `c & 3`).  The bit arguments are integers in
`{0, 1}` and the last index an integer in `[0, 4)`. -/
def SYNDROMES (vBit hBit cBits : ℤ) : Residual :=
  if vBit = 0 then
    (if hBit = 0 then
      (if cBits = 0 then ⟨4⟩ else if cBits = 1 then ⟨6⟩ else
       if cBits = 2 then ⟨0⟩ else ⟨2⟩)
     else
      (if cBits = 0 then ⟨3⟩ else if cBits = 1 then ⟨5⟩ else
       if cBits = 2 then ⟨7⟩ else ⟨1⟩))
  else
    (if hBit = 0 then
      (if cBits = 0 then ⟨7⟩ else if cBits = 1 then ⟨1⟩ else
       if cBits = 2 then ⟨3⟩ else ⟨5⟩)
     else
      (if cBits = 0 then ⟨0⟩ else if cBits = 1 then ⟨2⟩ else
       if cBits = 2 then ⟨4⟩ else ⟨6⟩))

namespace ShiftedBCC

/-- The `Residual` computed by `ShiftedBCC::arrow`:
`SYNDROMES[v_bit][h_bit][c_bits]` where `(self.v as usize >> 1) & 1` is
bit 1 of the two's complement representation, i.e. `(v % 4) / 2` with
Euclidean `%` and `/`. -/
def arrowRes (b : ShiftedBCC) : Residual :=
  SYNDROMES (b.v % 4 / 2) (b.h % 4 / 2) (b.c % 4)

/-- The destination computed by `ShiftedBCC::arrow`:
`(self - DELTAS[residual]) >> 1`, where `>> 1` on `i16` is floor
division by 2. -/
def arrowDest (b : ShiftedBCC) : ShiftedBCC :=
  ⟨Int.fdiv (b.v - (DELTAS (arrowRes b).val).1) 2,
   Int.fdiv (b.h - (DELTAS (arrowRes b).val).2.1) 2,
   Int.fdiv (b.c - (DELTAS (arrowRes b).val).2.2) 2⟩

/-- `ShiftedBCC::arrow`: the nearest `ShiftedBCC` to `½ self` together
with the `Residual`. -/
def arrow (b : ShiftedBCC) : ShiftedBCC × Residual := (arrowDest b, arrowRes b)

/-- The max-absolute-value of the three stored coordinates; the measure
used to show that iterating `arrow` terminates. -/
def mu (b : ShiftedBCC) : ℕ := max b.v.natAbs (max b.h.natAbs b.c.natAbs)

/-- The eight internal-coordinate fixed points of `arrow`. -/
def eightFixed : List ShiftedBCC :=
  [⟨0,0,-2⟩, ⟨-1,1,1⟩, ⟨-1,-1,1⟩, ⟨-2,0,-2⟩, ⟨0,0,0⟩, ⟨-1,1,-1⟩, ⟨-1,-1,-1⟩, ⟨-2,0,0⟩]

/-- The external coordinates of the eight fixed points of `arrow`. -/
def eightFixedExt : List (ℚ × ℚ × ℚ) :=
  [(1, 0, -3/2), (0, 1, 3/2), (0, -1, 3/2), (-1, 0, -3/2),
   (1, 0, 1/2), (0, 1, -1/2), (0, -1, -1/2), (-1, 0, 1/2)]

end ShiftedBCC

/-- `struct Chain` from `src/quantize/bcc.rs`: residuals from least to
most significant, plus the final residual fixing the fixed point. -/
structure Chain where
  residuals : List Residual
  last_residual : Residual
deriving DecidableEq, Repr

namespace Chain

/-- The loop body of `Chain::from_bcc`, with explicit fuel.  The Rust
loop runs until `bcc == half`; `ShiftedBCC.mu` strictly decreases along
the loop (see `arrow_terminates`), so `mu b + 2` fuel always suffices
for a valid lattice point. -/
def fromBccAux : ℕ → ShiftedBCC → List Residual × Residual
  | 0, b => ([], b.arrowRes)
  | n + 1, b =>
    if b = b.arrowDest then ([], b.arrowRes)
    else
      let p := fromBccAux n b.arrowDest
      (b.arrowRes :: p.1, p.2)

/-- `Chain::from_bcc`. -/
def from_bcc (b : ShiftedBCC) : Chain :=
  let p := fromBccAux (b.mu + 2) b
  { residuals := p.1, last_residual := p.2 }

/-- The loop of `Chain::vhc`: starting from the fixed point of the last
residual, add each residual (most significant first) and double. -/
def vhcAux : List Residual → Residual → ℚ × ℚ × ℚ
  | [], last => last.fixed_point
  | r :: rest, last =>
    let (v, h, c) := vhcAux rest last
    let (dv, dh, dc) := r.vhc
    ((v + dv) * 2, (h + dh) * 2, (c + dc) * 2)

/-- `Chain::vhc`. -/
def vhc (ch : Chain) : ℚ × ℚ × ℚ := vhcAux ch.residuals ch.last_residual

/-- `Chain::to_bcc`. -/
def to_bcc (ch : Chain) : ShiftedBCC :=
  let (v, h, c) := ch.vhc
  ShiftedBCC.new v h c

end Chain

-- ==========================================================================
-- Theorems
-- ==========================================================================

namespace ShiftedBCC

lemma delta_bounds (i : Fin 8) :
    (0 ≤ (DELTAS i).1 ∧ (DELTAS i).1 ≤ 2) ∧
    (-1 ≤ (DELTAS i).2.1 ∧ (DELTAS i).2.1 ≤ 1) ∧
    (-1 ≤ (DELTAS i).2.2 ∧ (DELTAS i).2.2 ≤ 2) := by revert i; decide

lemma arrow_delta_even (b : ShiftedBCC) (hb : b.Valid) :
    2 ∣ (b.v - (DELTAS (arrowRes b).val).1) ∧
    2 ∣ (b.h - (DELTAS (arrowRes b).val).2.1) ∧
    2 ∣ (b.c - (DELTAS (arrowRes b).val).2.2) := by
  obtain ⟨h1, h2⟩ := hb
  have hc : b.c % 4 = 0 ∨ b.c % 4 = 1 ∨ b.c % 4 = 2 ∨ b.c % 4 = 3 := by omega
  have hv : b.v % 4 / 2 = 0 ∨ b.v % 4 / 2 = 1 := by omega
  have hh : b.h % 4 / 2 = 0 ∨ b.h % 4 / 2 = 1 := by omega
  rcases hc with hc | hc | hc | hc <;> rcases hv with hv | hv <;> rcases hh with hh | hh <;>
    simp only [arrowRes, SYNDROMES, hc, hv, hh] <;> norm_num [DELTAS] <;> omega

lemma coord_bound (x d : ℤ) (M : ℕ) (hd0 : -1 ≤ d) (hd2 : d ≤ 2) (he : 2 ∣ (x - d))
    (h3 : 3 ≤ M) (hx : x.natAbs ≤ M) : ((x - d).fdiv 2).natAbs ≤ M - 1 := by
  obtain ⟨k, hk⟩ := he
  rw [hk, Int.mul_fdiv_cancel_left _ (by norm_num)]
  omega

lemma mu_lt_of_big (b : ShiftedBCC) (hb : b.Valid) (h3 : 3 ≤ b.mu) :
    (arrowDest b).mu < b.mu := by
  obtain ⟨he1, he2, he3⟩ := arrow_delta_even b hb
  have hd := delta_bounds (arrowRes b).val
  have b1 := coord_bound b.v _ b.mu (by omega) hd.1.2 he1 h3 (by unfold mu; omega)
  have b2 := coord_bound b.h _ b.mu hd.2.1.1 (by omega) he2 h3 (by unfold mu; omega)
  have b3 := coord_bound b.c _ b.mu hd.2.2.1 hd.2.2.2 he3 h3 (by unfold mu; omega)
  simp only [arrowDest, mu] at *
  omega

end ShiftedBCC

namespace ShiftedBCC

lemma fdiv_two (n : ℤ) : n.fdiv 2 = n / 2 := Int.fdiv_eq_ediv n (by norm_num)


set_option maxHeartbeats 4000000 in
lemma small_region_dec :
    ∀ v ∈ Finset.Icc (-2:ℤ) 2, ∀ h ∈ Finset.Icc (-2:ℤ) 2, ∀ c ∈ Finset.Icc (-2:ℤ) 2,
      (Valid ⟨v,h,c⟩ →
        (arrowDest ⟨v,h,c⟩ = ⟨v,h,c⟩ ↔ (⟨v,h,c⟩ : ShiftedBCC) ∈ eightFixed) ∧
        (arrowDest ⟨v,h,c⟩ ≠ ⟨v,h,c⟩ →
          (arrowDest ⟨v,h,c⟩).mu < (⟨v,h,c⟩ : ShiftedBCC).mu ∨
            (arrowDest (arrowDest ⟨v,h,c⟩) = arrowDest ⟨v,h,c⟩ ∧
             (arrowDest ⟨v,h,c⟩).mu ≤ (⟨v,h,c⟩ : ShiftedBCC).mu))) := by decide

lemma small_region (b : ShiftedBCC) (hb : b.Valid) (h2 : b.mu ≤ 2) :
    (arrowDest b = b ↔ b ∈ eightFixed) ∧
    (arrowDest b ≠ b →
      (arrowDest b).mu < b.mu ∨
        (arrowDest (arrowDest b) = arrowDest b ∧ (arrowDest b).mu ≤ b.mu)) := by
  obtain ⟨v, h, c⟩ := b
  simp only [mu] at h2
  exact small_region_dec v (by simp only [Finset.mem_Icc]; omega)
    h (by simp only [Finset.mem_Icc]; omega) c (by simp only [Finset.mem_Icc]; omega) hb

set_option maxHeartbeats 1600000 in
lemma arrow_valid (b : ShiftedBCC) (hb : b.Valid) : (arrowDest b).Valid := by
  obtain ⟨h1, h2⟩ := hb
  have hc : b.c % 4 = 0 ∨ b.c % 4 = 1 ∨ b.c % 4 = 2 ∨ b.c % 4 = 3 := by omega
  have hv : b.v % 4 / 2 = 0 ∨ b.v % 4 / 2 = 1 := by omega
  have hh : b.h % 4 / 2 = 0 ∨ b.h % 4 / 2 = 1 := by omega
  rcases hc with hc | hc | hc | hc <;> rcases hv with hv | hv <;> rcases hh with hh | hh <;>
    simp only [Valid, arrowDest, arrowRes, SYNDROMES, hc, hv, hh, fdiv_two] <;>
    norm_num [DELTAS] <;> omega

end ShiftedBCC

namespace ShiftedBCC

lemma resid_table (i : Fin 8) :
    RESIDUALS i = ((((DELTAS i).1 : ℚ) - 1)/2, ((DELTAS i).2.1 : ℚ)/2,
      (2*((DELTAS i).2.2 : ℚ) - 1)/4) := by
  fin_cases i <;> norm_num [RESIDUALS, DELTAS]

lemma arrow_resid (b : ShiftedBCC) (hb : b.Valid) :
    (arrowRes b).vhc =
      (b.extV / 2 - (arrowDest b).extV, b.extH / 2 - (arrowDest b).extH,
       b.extC / 2 - (arrowDest b).extC) := by
  obtain ⟨he1, he2, he3⟩ := arrow_delta_even b hb
  obtain ⟨k1, hk1⟩ := he1
  obtain ⟨k2, hk2⟩ := he2
  obtain ⟨k3, hk3⟩ := he3
  have d1 : (b.v - (DELTAS (arrowRes b).val).1).fdiv 2 = k1 := by
    rw [hk1, Int.mul_fdiv_cancel_left _ (by norm_num)]
  have d2 : (b.h - (DELTAS (arrowRes b).val).2.1).fdiv 2 = k2 := by
    rw [hk2, Int.mul_fdiv_cancel_left _ (by norm_num)]
  have d3 : (b.c - (DELTAS (arrowRes b).val).2.2).fdiv 2 = k3 := by
    rw [hk3, Int.mul_fdiv_cancel_left _ (by norm_num)]
  have hv : (b.v : ℚ) = 2*(k1 : ℚ) + ((DELTAS (arrowRes b).val).1 : ℚ) := by
    have h' : b.v = 2*k1 + (DELTAS (arrowRes b).val).1 := by omega
    exact_mod_cast h'
  have hh : (b.h : ℚ) = 2*(k2 : ℚ) + ((DELTAS (arrowRes b).val).2.1 : ℚ) := by
    have h' : b.h = 2*k2 + (DELTAS (arrowRes b).val).2.1 := by omega
    exact_mod_cast h'
  have hc : (b.c : ℚ) = 2*(k3 : ℚ) + ((DELTAS (arrowRes b).val).2.2 : ℚ) := by
    have h' : b.c = 2*k3 + (DELTAS (arrowRes b).val).2.2 := by omega
    exact_mod_cast h'
  rw [Residual.vhc, resid_table]
  simp only [arrowDest, d1, d2, d3, extV, extH, extC, Prod.mk.injEq]
  refine ⟨by rw [hv]; ring, by rw [hh]; ring, by rw [hc]; ring⟩

lemma fixed_point_eq (b : ShiftedBCC) (hb : b.Valid) (hfix : arrowDest b = b) :
    (arrowRes b).fixed_point = (b.extV, b.extH, b.extC) := by
  have h := arrow_resid b hb
  rw [hfix] at h
  simp only [Residual.fixed_point, h]
  refine Prod.ext (by ring) (Prod.ext (by ring) (by ring))

lemma step_cases (b : ShiftedBCC) (hb : b.Valid) (hne : arrowDest b ≠ b) :
    (arrowDest b).mu < b.mu ∨ arrowDest (arrowDest b) = arrowDest b := by
  by_cases h3 : 3 ≤ b.mu
  · exact Or.inl (mu_lt_of_big b hb h3)
  · rcases (small_region b hb (by omega)).2 hne with h | h
    · exact Or.inl h
    · exact Or.inr h.1

end ShiftedBCC

namespace ShiftedBCC

lemma trunc_intCast (n : ℤ) : truncQ (n : ℚ) = n := by
  unfold truncQ
  split_ifs <;> simp

lemma new_ext (b : ShiftedBCC) : ShiftedBCC.new b.extV b.extH b.extC = b := by
  unfold new extV extH extC
  have h1 : ((b.v : ℚ) + 1) - 1 = (b.v : ℚ) := by ring
  have h3 : ((b.c : ℚ) + 1/2) - 1/2 = (b.c : ℚ) := by ring
  rw [h1, h3, trunc_intCast, trunc_intCast, trunc_intCast]

lemma fromBccAux_fixed (b : ShiftedBCC) (hfix : b = arrowDest b) (n : ℕ) :
    Chain.fromBccAux n b = ([], b.arrowRes) := by
  cases n with
  | zero => rfl
  | succ m => simp [Chain.fromBccAux, if_pos hfix]

lemma vhcAux_ext (n : ℕ) : ∀ b : ShiftedBCC, b.Valid → b.mu + 1 ≤ n →
    Chain.vhcAux (Chain.fromBccAux n b).1 (Chain.fromBccAux n b).2 =
      (b.extV, b.extH, b.extC) := by
  induction n with
  | zero => intro b hb hn; omega
  | succ n ih =>
    intro b hb hn
    by_cases hfix : b = arrowDest b
    · rw [fromBccAux_fixed b hfix]
      have := fixed_point_eq b hb hfix.symm
      simpa [Chain.vhcAux] using this
    · have hstep : Chain.fromBccAux (n+1) b =
        (b.arrowRes :: (Chain.fromBccAux n (arrowDest b)).1,
         (Chain.fromBccAux n (arrowDest b)).2) := by
        simp [Chain.fromBccAux, if_neg hfix]
      have hvd : (arrowDest b).Valid := arrow_valid b hb
      have hres := arrow_resid b hb
      have htail : Chain.vhcAux (Chain.fromBccAux n (arrowDest b)).1
          (Chain.fromBccAux n (arrowDest b)).2 =
          ((arrowDest b).extV, (arrowDest b).extH, (arrowDest b).extC) := by
        rcases step_cases b hb (fun h => hfix h.symm) with hlt | hfix2
        · exact ih (arrowDest b) hvd (by omega)
        · rw [fromBccAux_fixed (arrowDest b) hfix2.symm]
          simpa [Chain.vhcAux] using fixed_point_eq (arrowDest b) hvd hfix2
      rw [hstep]
      simp only [Chain.vhcAux, htail]
      rw [hres]
      refine Prod.ext (by ring) (Prod.ext (by ring) (by ring))

/-- Claim C2 (confirmed): `Chain::from_bcc` followed by `Chain::to_bcc`
is the identity on every (valid) `ShiftedBCC` lattice point. -/
theorem chain_roundtrip (b : ShiftedBCC) (hb : b.Valid) :
    (Chain.from_bcc b).to_bcc = b := by
  have h := vhcAux_ext (b.mu + 2) b hb (by omega)
  unfold Chain.from_bcc Chain.to_bcc Chain.vhc
  simp only []
  rw [h]
  exact new_ext b

theorem chain_roundtrip_witness : (Chain.from_bcc ⟨4, 2, 2⟩).to_bcc = ⟨4, 2, 2⟩ :=
  chain_roundtrip ⟨4, 2, 2⟩ (by constructor <;> norm_num)

end ShiftedBCC

namespace ShiftedBCC

lemma term_aux (n : ℕ) : ∀ b : ShiftedBCC, b.Valid → b.mu ≤ n →
    ∃ k ≤ n + 1, arrowDest (arrowDest^[k] b) = arrowDest^[k] b := by
  induction n with
  | zero =>
    intro b hb hn
    have hb0 : b = ⟨0, 0, 0⟩ := by
      obtain ⟨v, h, c⟩ := b
      simp only [mu] at hn
      simp only [ShiftedBCC.mk.injEq]
      omega
    subst hb0
    exact ⟨0, by omega, by decide⟩
  | succ n ih =>
    intro b hb hn
    by_cases hfix : arrowDest b = b
    · exact ⟨0, by omega, by simpa using hfix⟩
    · rcases step_cases b hb hfix with hlt | hfix2
      · obtain ⟨k, hk, hfk⟩ := ih (arrowDest b) (arrow_valid b hb) (by omega)
        exact ⟨k + 1, by omega, by rwa [Function.iterate_succ_apply]⟩
      · exact ⟨1, by omega, by simpa using hfix2⟩

/-- Claim C10 (confirmed): the loop in `Chain::from_bcc` terminates for
every valid lattice point: iterating `arrow` reaches a fixed point after
at most `mu b + 1` steps. -/
theorem from_bcc_terminates (b : ShiftedBCC) (hb : b.Valid) :
    ∃ k ≤ b.mu + 1, arrowDest (arrowDest^[k] b) = arrowDest^[k] b :=
  term_aux b.mu b hb le_rfl

theorem from_bcc_terminates_witness :
    ∃ k ≤ (⟨6, 4, -2⟩ : ShiftedBCC).mu + 1,
      arrowDest (arrowDest^[k] (⟨6, 4, -2⟩ : ShiftedBCC)) =
        arrowDest^[k] (⟨6, 4, -2⟩ : ShiftedBCC) :=
  from_bcc_terminates ⟨6, 4, -2⟩ (by constructor <;> norm_num)

lemma vhc_inj (a b : ShiftedBCC) (h : a.vhc = b.vhc) : a = b := by
  obtain ⟨v1, h1, c1⟩ := a
  obtain ⟨v2, h2, c2⟩ := b
  simp only [vhc, extV, extH, extC, Prod.mk.injEq] at h
  obtain ⟨e1, e2, e3⟩ := h
  have g1 : v1 = v2 := by exact_mod_cast add_right_cancel e1
  have g2 : h1 = h2 := by exact_mod_cast e2
  have g3 : c1 = c2 := by exact_mod_cast add_right_cancel e3
  simp [g1, g2, g3]


lemma mem_eightFixed_iff (b : ShiftedBCC) : b.vhc ∈ eightFixedExt ↔ b ∈ eightFixed := by
  constructor
  · intro h
    simp only [eightFixedExt, List.mem_cons, List.not_mem_nil, or_false] at h
    rcases h with h | h | h | h | h | h | h | h
    · have hbe := vhc_inj b ⟨0,0,-2⟩ (by rw [h]; norm_num [vhc, extV, extH, extC])
      subst hbe; simp [eightFixed]
    · have hbe := vhc_inj b ⟨-1,1,1⟩ (by rw [h]; norm_num [vhc, extV, extH, extC])
      subst hbe; simp [eightFixed]
    · have hbe := vhc_inj b ⟨-1,-1,1⟩ (by rw [h]; norm_num [vhc, extV, extH, extC])
      subst hbe; simp [eightFixed]
    · have hbe := vhc_inj b ⟨-2,0,-2⟩ (by rw [h]; norm_num [vhc, extV, extH, extC])
      subst hbe; simp [eightFixed]
    · have hbe := vhc_inj b ⟨0,0,0⟩ (by rw [h]; norm_num [vhc, extV, extH, extC])
      subst hbe; simp [eightFixed]
    · have hbe := vhc_inj b ⟨-1,1,-1⟩ (by rw [h]; norm_num [vhc, extV, extH, extC])
      subst hbe; simp [eightFixed]
    · have hbe := vhc_inj b ⟨-1,-1,-1⟩ (by rw [h]; norm_num [vhc, extV, extH, extC])
      subst hbe; simp [eightFixed]
    · have hbe := vhc_inj b ⟨-2,0,0⟩ (by rw [h]; norm_num [vhc, extV, extH, extC])
      subst hbe; simp [eightFixed]
  · intro h
    simp only [eightFixed, List.mem_cons, List.not_mem_nil, or_false] at h
    rcases h with h | h | h | h | h | h | h | h <;> subst h <;>
      norm_num [vhc, extV, extH, extC, eightFixedExt]

lemma fixed_iff_aux (b : ShiftedBCC) (hb : b.Valid) :
    arrowDest b = b ↔ b ∈ eightFixed := by
  by_cases h3 : 3 ≤ b.mu
  · have := mu_lt_of_big b hb h3
    constructor
    · intro hfix; rw [hfix] at this; omega
    · intro hmem
      exfalso
      have : b.mu ≤ 2 := by
        rcases (by simpa [eightFixed] using hmem :
          b = ⟨0,0,-2⟩ ∨ b = ⟨-1,1,1⟩ ∨ b = ⟨-1,-1,1⟩ ∨ b = ⟨-2,0,-2⟩ ∨
          b = ⟨0,0,0⟩ ∨ b = ⟨-1,1,-1⟩ ∨ b = ⟨-1,-1,-1⟩ ∨ b = ⟨-2,0,0⟩) with
          h | h | h | h | h | h | h | h <;> subst h <;> decide
      omega
  · exact (small_region b hb (by omega)).1

end ShiftedBCC

namespace ShiftedBCC

/-- Claim C6 counterexample: external point (0, 1, 1.5) is a fixed point
of `arrow` but is not among the four shortest lattice points. -/
theorem fixed_points_counterexample :
    (⟨-1,1,1⟩ : ShiftedBCC).Valid ∧
    (arrow ⟨-1,1,1⟩).1 = (⟨-1,1,1⟩ : ShiftedBCC) ∧
    (⟨-1,1,1⟩ : ShiftedBCC).vhc ∉
      ([(1, 0, 1/2), (-1, 0, 1/2), (0, 1, -1/2), (0, -1, -1/2)] : List (ℚ × ℚ × ℚ)) := by
  refine ⟨by constructor <;> norm_num, by decide, ?_⟩
  norm_num [vhc, extV, extH, extC]

/-- Claim C6 (amended): a valid `ShiftedBCC` is a fixed point of `arrow`
iff it is one of EIGHT points: the four shortest lattice points and the
four points `(±1, 0, ∓1.5)`, `(0, ±1, ±1.5)`. -/
theorem fixed_points_iff (b : ShiftedBCC) (hb : b.Valid) :
    (arrow b).1 = b ↔ b.vhc ∈ eightFixedExt := by
  rw [show (arrow b).1 = arrowDest b from rfl, fixed_iff_aux b hb, mem_eightFixed_iff]

theorem fixed_points_iff_witness :
    (⟨0,0,0⟩ : ShiftedBCC).Valid ∧
      ((arrow ⟨0,0,0⟩).1 = (⟨0,0,0⟩ : ShiftedBCC) ↔
        (⟨0,0,0⟩ : ShiftedBCC).vhc ∈ eightFixedExt) :=
  ⟨by constructor <;> norm_num, fixed_points_iff ⟨0,0,0⟩ (by constructor <;> norm_num)⟩

end ShiftedBCC
